import Mathlib

/-
Verification development for the nestcheck dead-point processing pipeline
(`nestcheck/data_processing.py`): the dead-point processor, the thread
decomposer `threads_given_birth_order`, the live-count and thread-range
calculation in `process_polychord_dead_points`, the run validator
`check_ns_run` / `check_ns_run_threads`, and the settings cross-check of
`process_polychord_run`.

NumPy arrays are modelled as Lean lists; float columns as rationals
(all arithmetic performed by the code on them is exact); assertion
failures and IndexError as `Except` errors carrying a structured error
value that records the data interpolated into the assertion message.
-/

deriving instance DecidableEq for Except

namespace Nestcheck

/-! ## Generic list helpers (models of the NumPy operations used) -/

/-- Set the element at position `i`; no effect when out of range
(in-place assignment at a valid index of a NumPy array). -/
def setAt {α : Type} : List α → Nat → α → List α
  | [], _, _ => []
  | _ :: xs, 0, a => a :: xs
  | x :: xs, n + 1, a => x :: setAt xs n a

/-- First index holding value `v`: the model of `np.where(arr == v)[0][0]`. -/
def firstIdxOf (l : List Int) (v : Int) : Option Nat :=
  match l with
  | [] => none
  | x :: xs => if x = v then some 0 else (firstIdxOf xs v).map (· + 1)

/-- Pair each element with its index starting at `k` (Python `enumerate`). -/
def indexed {α : Type} (k : Nat) : List α → List (Nat × α)
  | [] => []
  | x :: xs => (k, x) :: indexed (k + 1) xs

/-- Indices whose entry equals `v`, in ascending order: `np.where(arr == v)[0]`. -/
def idxsOf {α : Type} [DecidableEq α] (l : List α) (v : α) : List Nat :=
  (List.range l.length).filter (fun j => decide (l.get? j = some v))

/-- Collapse adjacent equal entries; applied to a sorted list this yields the
sorted distinct values, i.e. the model of `np.unique`. -/
def dedupSorted {α : Type} [DecidableEq α] : List α → List α
  | [] => []
  | [x] => [x]
  | x :: y :: ys => if x = y then dedupSorted (y :: ys) else x :: dedupSorted (y :: ys)

/-- Number of occurrences of `v` (one entry of the `counts` array returned by
`np.unique(..., return_counts=True)`). -/
def countOf {α : Type} [DecidableEq α] (l : List α) (v : α) : Nat :=
  (l.filter (fun x => decide (x = v))).length

/-- Running cumulative sums starting from accumulator `a`. -/
def cumsumFrom (a : Int) : List Int → List Int
  | [] => []
  | x :: xs => (a + x) :: cumsumFrom (a + x) xs

/-- The model of `np.cumsum` on an integer array. -/
def cumsum (l : List Int) : List Int := cumsumFrom 0 l

/-- Sum of the entries weighted by the number of entries strictly after them:
`wsum l = sum over i of (l.length - 1 - i) * l[i]`.  This is the quantity that
the cumulative-sum-then-drop-last construction totals up. -/
def wsum : List Int → Int
  | [] => 0
  | x :: xs => (xs.length : Int) * x + wsum xs

/-- Extract the values of a fully assigned label array; `none` when any entry
is still unassigned (`NaN` in the Python code). -/
def allSome : List (Option Nat) → Option (List Nat)
  | [] => some []
  | none :: _ => none
  | some t :: rest => (allSome rest).map (t :: ·)

/-! ## Data model -/

/-- Structured stand-ins for the `AssertionError` / `IndexError` raised by the
Python code; arguments record the data interpolated into the message. -/
inductive Err where
  /-- `assert np.all(birth_order >= 0)` failed. -/
  | negativeBirth : Err
  /-- `assert np.any(birth_order == 0)` failed. -/
  | noZeroBirth : Err
  /-- Walk ran out of fuel (unreachable: each step claims a fresh point). -/
  | fuelExhausted : Err
  /-- A forward walk reached an already-assigned point. -/
  | walkHitAssigned : Err
  /-- A new thread start was already assigned. -/
  | startAlreadyAssigned : Err
  /-- `assert np.all(~np.isnan(thread_labels))` failed. -/
  | unassignedPoints : Err
  /-- Unique labels are not `range(n_threads)`. -/
  | labelSequence : Err
  /-- Unique labels re-check in `process_polychord_dead_points` failed. -/
  | uniqueRelabel : Err
  /-- Duplicate `logl` check of `process_polychord_dead_points`; carries the
  number of repeated values (the only datum in the message). -/
  | repeatedLogls : Nat → Err
  /-- Duplicate `logl` check of `check_ns_run`; carries the duplicated values,
  their counts, the indices of the first duplicated value, and the repeat
  count, as interpolated into the assertion message. -/
  | duplicateLoglDetail : List ℚ → List Nat → List Nat → Nat → Err
  /-- `birth_contours` column held a non-integral value. -/
  | nonIntegerBirth : Err
  /-- `logl` not in sorted order (`check_ns_run`). -/
  | loglNotSorted : Err
  /-- A thread label has no points (`inds[0]` on an empty index array). -/
  | emptyThread : Err
  /-- Out-of-range array access. -/
  | indexError : Err
  /-- Unique thread labels differ from `range(thread_min_max.shape[0])`. -/
  | labelRange : Err
  /-- No thread has `min_logl = -inf`. -/
  | noPriorThread : Err
  /-- A thread min bound is not strictly below its first point. -/
  | threadMinMismatch : Err
  /-- A thread max bound differs from its last point. -/
  | threadMaxMismatch : Err
  /-- Settings cross-check: thread count differs from `settings.nlive`. -/
  | settingsThreadCount : Err
  /-- Settings cross-check: `nlive_array` differs from the standard profile. -/
  | settingsNliveMismatch : Err
deriving DecidableEq

/-- A thread boundary value: `-inf` or an actual `logl` value (the float
`-np.inf` stored in the `thread_min_max` array). -/
inductive LoglBound where
  | neginf : LoglBound
  | val : ℚ → LoglBound
deriving DecidableEq

/-- Strict comparison of a bound against a `logl` value. -/
def LoglBound.ltQ : LoglBound → ℚ → Bool
  | .neginf, _ => true
  | .val x, q => decide (x < q)

/-- One row of the raw dead-points table: `[logl, birth_contour, theta...]`. -/
structure DeadPoint where
  logl : ℚ
  birth : ℚ
  theta : List ℚ
deriving DecidableEq

/-- The processed run structure produced by `process_polychord_dead_points`. -/
structure NsRun where
  logl : List ℚ
  theta : List (List ℚ)
  thread_labels : List Nat
  thread_min_max : List (LoglBound × ℚ)
  nlive_array : List Int
deriving DecidableEq

/-- Mutable state of `threads_given_birth_order`: the next thread number, the
label array (`none` = `NaN`), and the list of indices at which new threads
were started (in start order). -/
structure DecompState where
  tnum : Nat
  labels : List (Option Nat)
  starts : List Nat
deriving DecidableEq

/-! ## Thread decomposer (`threads_given_birth_order`) -/

/-- Distinct birth-contour values, ascending, with multiplicity greater than
one: `unique[np.where(counts > 1)]`. -/
def multiBirthSteps (birth : List Int) : List Int :=
  (dedupSorted (List.insertionSort (fun a b : Int => a ≤ b) birth)).filter
    (fun v => decide (1 < countOf birth v))

/-- The forward walk: from current position `pos`, find the first point with
`birth_order == pos + 1`, assign it to thread `tn` and continue from it; stop
when there is no successor.  Reaching an already-assigned point is the
assertion failure of the Python `while` loop.  `fuel` bounds the recursion;
`birth.length` is enough because every step claims a fresh point. -/
def walkFill (birth : List Int) (tn : Nat) :
    Nat → Nat → List (Option Nat) → Except Err (List (Option Nat))
  | 0, _, _ => .error .fuelExhausted
  | fuel + 1, pos, labels =>
    match firstIdxOf birth ((pos : Int) + 1) with
    | none => .ok labels
    | some j =>
      match labels.get? j with
      | some none => walkFill birth tn fuel j (setAt labels j (some tn))
      | _ => .error .walkHitAssigned

/-- Start a new thread at index `j`: check it is unassigned, label it with the
current thread number, walk forward, then increment the thread number and
record the start. -/
def startThread (birth : List Int) (j : Nat) (st : DecompState) :
    Except Err DecompState :=
  match st.labels.get? j with
  | some none =>
    match walkFill birth st.tnum birth.length j (setAt st.labels j (some st.tnum)) with
    | .error e => .error e
    | .ok labels2 => .ok ⟨st.tnum + 1, labels2, st.starts ++ [j]⟩
  | _ => .error .startAlreadyAssigned

/-- Inner loop over the (enumerated) points sharing one multi-birth contour:
`for i, start_ind in enumerate(np.where(birth_order == step)[0])`, starting a
new thread `if i != 0 or nstep == 0`. -/
def innerLoop (birth : List Int) (nstep : Nat) :
    List (Nat × Nat) → DecompState → Except Err DecompState
  | [], st => .ok st
  | (i, j) :: rest, st =>
    if i ≠ 0 ∨ nstep = 0 then
      match startThread birth j st with
      | .error e => .error e
      | .ok st2 => innerLoop birth nstep rest st2
    else innerLoop birth nstep rest st

/-- Outer loop over the (enumerated) multi-birth contour values:
`for nstep, step in enumerate(multi_birth_steps)`. -/
def outerLoop (birth : List Int) :
    List (Nat × Int) → DecompState → Except Err DecompState
  | [], st => .ok st
  | (nstep, step) :: rest, st =>
    match innerLoop birth nstep (indexed 0 (idxsOf birth step)) st with
    | .error e => .error e
    | .ok st2 => outerLoop birth rest st2

/-- Fresh decomposition state: thread number `0`, all labels `NaN`, no starts. -/
def initState (n : Nat) : DecompState := ⟨0, List.replicate n none, []⟩

/-- The two input assertions of `threads_given_birth_order` followed by the
double loop; returns the final loop state. -/
def threadsResult (birth : List Int) : Except Err DecompState :=
  if birth.all (fun v => decide (0 ≤ v)) then
    if birth.any (fun v => decide (v = 0)) then
      outerLoop birth (indexed 0 (multiBirthSteps birth)) (initState birth.length)
    else .error .noZeroBirth
  else .error .negativeBirth

/-- Expected number of threads:
`np.sum(counts[np.where(counts > 1)]) - (multi_birth_steps.shape[0] - 1)`,
computed in `Int` as Python does. -/
def nThreadsExpected (birth : List Int) : Int :=
  ((multiBirthSteps birth).map (fun v => (countOf birth v : Int))).sum
    - (((multiBirthSteps birth).length : Int) - 1)

/-- The model of `threads_given_birth_order`: run the decomposition loops,
require every point assigned, and require the unique labels to be exactly
`range(n_threads)`. -/
def threads_given_birth_order (birth : List Int) : Except Err (List Nat) :=
  match threadsResult birth with
  | .error e => .error e
  | .ok st =>
    match allSome st.labels with
    | none => .error .unassignedPoints
    | some labels =>
      if dedupSorted (List.insertionSort (fun a b : Nat => a ≤ b) labels)
          = (if nThreadsExpected birth < 0 then []
             else List.range (nThreadsExpected birth).toNat)
      then .ok labels
      else .error .labelSequence

/-! ## Dead-point processor (`process_polychord_dead_points`) -/

/-- The rows sorted by ascending `logl`: `dead_points[np.argsort(dead_points[:, 0])]`. -/
def sortedRowsOf (rows : List DeadPoint) : List DeadPoint :=
  List.insertionSort (fun a b => a.logl ≤ b.logl) rows

/-- The sorted `logl` column. -/
def loglsOf (rows : List DeadPoint) : List ℚ :=
  (sortedRowsOf rows).map (fun r => r.logl)

/-- The sorted integer `birth_contour` column (`dead_points[:, 1].astype(int)`;
meaningful once each entry has been checked integral). -/
def birthContoursOf (rows : List DeadPoint) : List Int :=
  (sortedRowsOf rows).map (fun r => r.birth.num)

/-- Number of repeated `logl` values:
`logl.shape[0] - np.unique(logl).shape[0]`. -/
def repeatCountOf (rows : List DeadPoint) : Nat :=
  (loglsOf rows).length
    - (dedupSorted (List.insertionSort (fun a b : ℚ => a ≤ b) (loglsOf rows))).length

/-- Per-thread data read off by the live-count loop of
`process_polychord_dead_points`: `inds = np.where(thread_labels == label)[0]`,
birth time `birth_contours[inds[0]]` and death time `inds[-1] + 1`;
`none` models the IndexError on an empty `inds`. -/
def threadData (labels : List Nat) (birthC : List Int) (t : Nat) :
    Option (Int × Nat) :=
  let inds := idxsOf labels t
  match inds.head?, inds.getLast? with
  | some f, some lst =>
    match birthC.get? f with
    | some b => some (b, lst + 1)
    | none => none
  | _, _ => none

/-- Add `d` to the entry of `l` at (integer) index `i`; IndexError when out of
range.  Negative indices are unreachable here: `threads_given_birth_order`
has already required every birth contour to be non-negative. -/
def bump (l : List Int) (i : Int) (d : Int) : Except Err (List Int) :=
  if 0 ≤ i then
    match l.get? i.toNat with
    | some x => .ok (setAt l i.toNat (x + d))
    | none => .error .indexError
  else .error .indexError

/-- Thread minimum bound: `-inf` when the birth time is `0`, else
`logl[birth - 1]`. -/
def threadMin (logl : List ℚ) (b : Int) : Except Err LoglBound :=
  if b = 0 then .ok .neginf
  else if b < 0 then .error .indexError
  else
    match logl.get? (b.toNat - 1) with
    | some q => .ok (.val q)
    | none => .error .indexError

/-- The loop `for label in unique_threads` of `process_polychord_dead_points`:
accumulates the `thread_min_max` rows and the `delta_nlive` array. -/
def mmDeltaLoop (logl : List ℚ) (labels : List Nat) (birthC : List Int) :
    List Nat → List (LoglBound × ℚ) → List Int →
    Except Err (List (LoglBound × ℚ) × List Int)
  | [], mm, delta => .ok (mm, delta)
  | t :: ts, mm, delta =>
    match threadData labels birthC t with
    | none => .error .emptyThread
    | some (b, d) =>
      match bump delta b 1 with
      | .error e => .error e
      | .ok delta1 =>
        match bump delta1 (d : Int) (-1) with
        | .error e => .error e
        | .ok delta2 =>
          match threadMin logl b, logl.get? (d - 1) with
          | .error e, _ => .error e
          | .ok _, none => .error .indexError
          | .ok mn, some mx =>
            mmDeltaLoop logl labels birthC ts (mm ++ [(mn, mx)]) delta2

/-- The duplicate-likelihood check of `process_polychord_dead_points`:
`assert repeat_logls == 0`; the assertion message carries only the repeat
count. -/
def duplicateLoglCheck (rows : List DeadPoint) : Except Err Unit :=
  if repeatCountOf rows ≠ 0 then .error (.repeatedLogls (repeatCountOf rows))
  else .ok ()

/-- The model of `process_polychord_dead_points`: sort by `logl`, reject
duplicate likelihoods, split off `theta`, check the birth column integral,
decompose into threads, re-check the label range, then derive
`thread_min_max` and `nlive_array`. -/
def process_polychord_dead_points (rows : List DeadPoint) : Except Err NsRun :=
  let sorted := sortedRowsOf rows
  let logl := loglsOf rows
  match duplicateLoglCheck rows with
  | .error e => .error e
  | .ok _ =>
    let theta := sorted.map (fun r => r.theta)
    if sorted.all (fun r => decide (r.birth.den = 1)) then
      match threads_given_birth_order (birthContoursOf rows) with
      | .error e => .error e
      | .ok labels =>
        let uniq := dedupSorted (List.insertionSort (fun a b : Nat => a ≤ b) labels)
        if uniq = List.range uniq.length then
          match mmDeltaLoop logl labels (birthContoursOf rows) uniq []
              (List.replicate (logl.length + 1) 0) with
          | .error e => .error e
          | .ok (mm, delta) =>
            .ok { logl := logl, theta := theta, thread_labels := labels,
                  thread_min_max := mm, nlive_array := (cumsum delta).dropLast }
        else .error .uniqueRelabel
    else .error .nonIntegerBirth

/-! ## Run validator (`check_ns_run` / `check_ns_run_threads`) -/

/-- Per-thread bound checks of `check_ns_run_threads`: the thread min bound is
strictly below the first point of the thread and the max bound equals its
last point. -/
def checkThreadBounds (run : NsRun) : List Nat → Except Err Unit
  | [] => .ok ()
  | t :: ts =>
    let inds := idxsOf run.thread_labels t
    match inds.head?, inds.getLast? with
    | some f, some lst =>
      match run.logl.get? f, run.logl.get? lst, run.thread_min_max.get? t with
      | some lf, some ll, some mm =>
        if mm.1.ltQ lf then
          if mm.2 = ll then checkThreadBounds run ts
          else .error .threadMaxMismatch
        else .error .threadMinMismatch
      | _, _, _ => .error .indexError
    | _, _ => .error .indexError

/-- The model of `check_ns_run_threads`: unique labels are exactly
`range(thread_min_max.shape[0])`, at least one thread min is `-inf`, and the
per-thread bound checks pass.  (The dtype check is structural: labels are
naturals by construction.) -/
def check_ns_run_threads (run : NsRun) : Except Err Unit :=
  let uniq := dedupSorted (List.insertionSort (fun a b : Nat => a ≤ b) run.thread_labels)
  if uniq = List.range run.thread_min_max.length then
    if run.thread_min_max.any (fun mm => decide (mm.1 = LoglBound.neginf)) then
      checkThreadBounds run uniq
    else .error .noPriorThread
  else .error .labelRange

/-- The model of `check_ns_run`: the key checks are structural (the record
type fixes the fields), then `logl` must be sorted, duplicate-free (the
failure message carries the duplicated values, their counts and the indices
of the first duplicated value), and the thread checks must pass. -/
def check_ns_run (run : NsRun) : Except Err Unit :=
  if List.insertionSort (fun a b : ℚ => a ≤ b) run.logl = run.logl then
    let uniqL := dedupSorted (List.insertionSort (fun a b : ℚ => a ≤ b) run.logl)
    let rep := run.logl.length - uniqL.length
    if rep = 0 then check_ns_run_threads run
    else
      let dupVals := uniqL.filter (fun v => decide (1 < countOf run.logl v))
      .error (.duplicateLoglDetail dupVals (dupVals.map (countOf run.logl))
        (match dupVals.head? with
         | some v => idxsOf run.logl v
         | none => []) rep)
  else .error .loglNotSorted

/-! ## Settings cross-check (`process_polychord_run`, standard-run branch) -/

/-- Build the expected constant-live-point profile exactly as the code does:
`np.zeros(n) + nlive` then `standard_nlive_array[-i] = i` for
`i in range(1, nlive)`; a negative index reaching below the start of the
array is an IndexError. -/
def rampDown (n : Nat) : List Nat → List Int → Except Err (List Int)
  | [], arr => .ok arr
  | i :: is, arr =>
    if i ≤ n then rampDown n is (setAt arr (n - i) (i : Int))
    else .error .indexError

/-- `standard_nlive_array` of `process_polychord_run` for a run of `n` points
with constant live-point count `nlive`. -/
def standard_nlive_array (n nlive : Nat) : Except Err (List Int) :=
  rampDown n ((List.range (nlive - 1)).map (fun i => i + 1))
    (List.replicate n (nlive : Int))

/-- The spec formulation of the same profile: constant at `nlive` for all but
the final `nlive - 1` points, then ramping linearly down to `1`. -/
def expectedConstantNliveProfile (n nlive : Nat) : List Int :=
  List.replicate (n - (nlive - 1)) (nlive : Int)
    ++ (List.range (nlive - 1)).reverse.map (fun k : Nat => (k : Int) + 1)

/-- The settings cross-check performed by `process_polychord_run` when the
metadata declares a non-dynamic live-point count `nlive`: the thread count
must equal `nlive` and `nlive_array` must equal the standard profile. -/
def settings_cross_check (run : NsRun) (nlive : Nat) : Except Err Unit :=
  if run.thread_min_max.length = nlive then
    match standard_nlive_array run.logl.length nlive with
    | .error e => .error e
    | .ok std =>
      if run.nlive_array = std then .ok () else .error .settingsNliveMismatch
  else .error .settingsThreadCount

/-! ## Concrete inputs used by the worked scenarios -/

/-- The worked scenario of the spec: `logl = [1, 2, 3, 4]`,
`birth_contour = [0, 0, 1, 2]`. -/
def exampleRows : List DeadPoint :=
  [⟨1, 0, []⟩, ⟨2, 0, []⟩, ⟨3, 1, []⟩, ⟨4, 2, []⟩]

/-- The run the pipeline produces on `exampleRows`. -/
def exampleRun : NsRun :=
  { logl := [1, 2, 3, 4], theta := [[], [], [], []],
    thread_labels := [0, 1, 0, 1],
    thread_min_max := [(.neginf, 3), (.neginf, 4)],
    nlive_array := [2, 2, 2, 1] }

/-- The duplicate-likelihood scenario of the spec: `logl = [1, 1, 2]`. -/
def exampleDupRows : List DeadPoint :=
  [⟨1, 0, []⟩, ⟨1, 0, []⟩, ⟨2, 1, []⟩]

/-- A dead-points table whose prior-sampled points carry the Fortran sentinel
`-2147483648` in place of birth contour `0`. -/
def exampleSentinelRows : List DeadPoint :=
  [⟨1, -2147483648, []⟩, ⟨2, -2147483648, []⟩, ⟨3, 1, []⟩, ⟨4, 2, []⟩]

/-- Invariant of the decomposition loops relating thread starts to the
multi-birth contour rule: the label array stays aligned with the birth
array; an assigned point that is not a recorded start was assigned by a
forward walk and therefore has birth contour at least `1`; and every
recorded start sits at a multi-birth contour value, being either at the
first multi-birth step or not the first sharer of its contour value. -/
def StartsInv (birth : List Int) (st : DecompState) : Prop :=
  st.labels.length = birth.length ∧
  (∀ j t, st.labels.get? j = some (some t) →
    j ∈ st.starts ∨ ∃ v, birth.get? j = some v ∧ 1 ≤ v) ∧
  (∀ j ∈ st.starts, ∃ v, birth.get? j = some v ∧ v ∈ multiBirthSteps birth ∧
    ((multiBirthSteps birth).head? = some v ∨ (idxsOf birth v).head? ≠ some j))

/-! ## Helper lemmas: list utilities -/

theorem setAt_length {α : Type} (l : List α) (i : Nat) (a : α) :
    (setAt l i a).length = l.length := by
  induction l generalizing i with
  | nil => rfl
  | cons x xs ih =>
    cases i with
    | zero => rfl
    | succ n => simpa [setAt] using ih n

theorem get?_setAt_self {α : Type} (l : List α) (i : Nat) (a : α)
    (h : i < l.length) : (setAt l i a).get? i = some a := by
  induction l generalizing i with
  | nil => simp at h
  | cons x xs ih =>
    cases i with
    | zero => rfl
    | succ n =>
      simp only [List.length_cons, Nat.succ_lt_succ_iff] at h
      simpa [setAt] using ih n h

theorem get?_setAt_ne {α : Type} (l : List α) (i j : Nat) (a : α)
    (h : i ≠ j) : (setAt l i a).get? j = l.get? j := by
  induction l generalizing i j with
  | nil => rfl
  | cons x xs ih =>
    cases i with
    | zero =>
      cases j with
      | zero => exact absurd rfl h
      | succ m => rfl
    | succ n =>
      cases j with
      | zero => rfl
      | succ m =>
        simpa [setAt] using ih n m (by omega)

theorem firstIdxOf_some {l : List Int} {v : Int} {j : Nat}
    (h : firstIdxOf l v = some j) : l.get? j = some v := by
  induction l generalizing j with
  | nil => simp [firstIdxOf] at h
  | cons x xs ih =>
    by_cases hx : x = v
    · simp [firstIdxOf, hx] at h
      subst h; simpa using hx
    · simp [firstIdxOf, hx] at h
      obtain ⟨m, hm, hj⟩ := h
      subst hj
      simpa using ih hm

theorem mem_indexed {α : Type} {k : Nat} {l : List α} {p : Nat × α} :
    p ∈ indexed k l ↔ ∃ m, p.1 = k + m ∧ l.get? m = some p.2 := by
  induction l generalizing k with
  | nil => simp [indexed]
  | cons x xs ih =>
    simp only [indexed, List.mem_cons]
    constructor
    · intro h
      rcases h with h | h
      · subst h
        exact ⟨0, by simp, rfl⟩
      · obtain ⟨m, hm, hg⟩ := ih.mp h
        refine ⟨m + 1, by omega, ?_⟩
        simpa [List.get?] using hg
    · rintro ⟨m, hm, hg⟩
      cases m with
      | zero =>
        left
        simp only [List.get?] at hg
        injection hg with hg
        cases p
        simp only at hm hg
        simp [hm, hg]
      | succ n =>
        right
        refine ih.mpr ⟨n, by omega, ?_⟩
        simpa [List.get?] using hg

theorem mem_idxsOf {α : Type} [DecidableEq α] {l : List α} {v : α} {j : Nat} :
    j ∈ idxsOf l v ↔ l.get? j = some v := by
  unfold idxsOf
  rw [List.mem_filter, List.mem_range]
  constructor
  · intro h
    exact of_decide_eq_true h.2
  · intro h
    refine ⟨?_, decide_eq_true h⟩
    by_contra hge
    rw [List.get?_eq_none.mpr (by omega)] at h
    exact Option.noConfusion h

theorem idxsOf_nodup {α : Type} [DecidableEq α] (l : List α) (v : α) :
    (idxsOf l v).Nodup :=
  (List.nodup_range _).filter _

theorem head?_eq_get?_zero {α : Type} (l : List α) : l.head? = l.get? 0 := by
  cases l <;> rfl

theorem nodup_get?_inj {α : Type} {l : List α} {i j : Nat} {a : α}
    (hn : l.Nodup) (hi : l.get? i = some a) (hj : l.get? j = some a) : i = j := by
  induction l generalizing i j with
  | nil => simp at hi
  | cons x xs ih =>
    rcases List.nodup_cons.mp hn with ⟨hx, hxs⟩
    cases i with
    | zero =>
      cases j with
      | zero => rfl
      | succ m =>
        simp only [List.get?] at hi hj
        injection hi with hi
        exact absurd (hi ▸ List.get?_mem hj) hx
    | succ n =>
      cases j with
      | zero =>
        simp only [List.get?] at hi hj
        injection hj with hj
        exact absurd (hj ▸ List.get?_mem hi) hx
      | succ m =>
        simp only [List.get?] at hi hj
        exact congrArg Nat.succ (ih hxs hi hj)

theorem mem_iff_get?_some {α : Type} {l : List α} {a : α} :
    a ∈ l ↔ ∃ j, l.get? j = some a := by
  constructor
  · intro h
    induction l with
    | nil => simp at h
    | cons x xs ih =>
      rcases List.mem_cons.mp h with h | h
      · exact ⟨0, by rw [h]; rfl⟩
      · obtain ⟨j, hj⟩ := ih h
        exact ⟨j + 1, by simpa [List.get?] using hj⟩
  · rintro ⟨j, hj⟩
    exact List.get?_mem hj

/-! ## Helper lemmas: `dedupSorted` and sorting -/

theorem mem_dedupSorted {α : Type} [DecidableEq α] {l : List α} {a : α} :
    a ∈ dedupSorted l ↔ a ∈ l := by
  induction l with
  | nil => rfl
  | cons x xs ih =>
    cases xs with
    | nil => rfl
    | cons y ys =>
      by_cases hxy : x = y
      · rw [dedupSorted, if_pos hxy]
        rw [ih]
        subst hxy
        simp
      · rw [dedupSorted, if_neg hxy]
        simp only [List.mem_cons] at ih ⊢
        rw [ih]

theorem dedupSorted_sublist {α : Type} [DecidableEq α] (l : List α) :
    List.Sublist (dedupSorted l) l := by
  induction l with
  | nil => exact List.Sublist.refl _
  | cons x xs ih =>
    cases xs with
    | nil => exact List.Sublist.refl _
    | cons y ys =>
      by_cases hxy : x = y
      · rw [dedupSorted, if_pos hxy]
        exact ih.cons x
      · rw [dedupSorted, if_neg hxy]
        exact ih.cons₂ x

theorem dedupSorted_head_le {α : Type} [LinearOrder α] {a : α} {l : List α}
    (hs : (a :: l).Sorted (· ≤ ·)) :
    ∃ b bs, dedupSorted (a :: l) = b :: bs ∧ a ≤ b := by
  induction l generalizing a with
  | nil => exact ⟨a, [], rfl, le_refl a⟩
  | cons y ys ih =>
    by_cases hxy : a = y
    · obtain ⟨b, bs, hds, hyb⟩ := ih (List.sorted_cons.mp hs).2
      rw [dedupSorted, if_pos hxy]
      exact ⟨b, bs, hds, hxy ▸ hyb⟩
    · rw [dedupSorted, if_neg hxy]
      exact ⟨a, _, rfl, le_refl a⟩

theorem dedupSorted_sorted_lt {α : Type} [LinearOrder α] {l : List α}
    (hs : l.Sorted (· ≤ ·)) : (dedupSorted l).Sorted (· < ·) := by
  induction l with
  | nil => exact List.sorted_nil
  | cons x xs ih =>
    cases xs with
    | nil => simpa [dedupSorted] using List.sorted_singleton x
    | cons y ys =>
      have hs2 := (List.sorted_cons.mp hs).2
      have hxle : x ≤ y := (List.sorted_cons.mp hs).1 y (by simp)
      by_cases hxy : x = y
      · rw [dedupSorted, if_pos hxy]
        exact ih hs2
      · rw [dedupSorted, if_neg hxy]
        obtain ⟨b, bs, hds, hyb⟩ := dedupSorted_head_le hs2
        rw [hds]
        rw [hds] at ih
        refine List.sorted_cons.mpr ⟨?_, ih hs2⟩
        intro c hc
        have hxb : x < b := lt_of_le_of_ne (le_trans hxle hyb)
          (by
            intro hxbe
            exact hxy (le_antisymm hxle (hxbe ▸ hyb)))
      -- every element of b :: bs is at least b
        rcases List.mem_cons.mp hc with hc | hc
        · exact hc ▸ hxb
        · have hsorted := ih hs2
          exact lt_trans hxb ((List.sorted_cons.mp hsorted).1 c hc)

theorem dedupSorted_nodup {α : Type} [LinearOrder α] {l : List α}
    (hs : l.Sorted (· ≤ ·)) : (dedupSorted l).Nodup :=
  (dedupSorted_sorted_lt hs).nodup

theorem dedupSorted_eq_self_of_nodup {α : Type} [DecidableEq α] {l : List α}
    (hn : l.Nodup) : dedupSorted l = l := by
  induction l with
  | nil => rfl
  | cons x xs ih =>
    cases xs with
    | nil => rfl
    | cons y ys =>
      have hxy : x ≠ y := by
        intro h
        rw [h] at hn
        simp at hn
      rw [dedupSorted, if_neg hxy, ih (List.nodup_cons.mp hn).2]

/-! ## Helper lemmas: `allSome` -/

theorem allSome_length {l : List (Option Nat)} {m : List Nat}
    (h : allSome l = some m) : m.length = l.length := by
  induction l generalizing m with
  | nil =>
    simp only [allSome] at h
    injection h with h
    rw [← h]; rfl
  | cons x xs ih =>
    cases x with
    | none => exact absurd h (by simp [allSome])
    | some t =>
      simp only [allSome, Option.map_eq_some'] at h
      obtain ⟨m2, hm2, hm⟩ := h
      rw [← hm]
      simpa using ih hm2

theorem allSome_get? {l : List (Option Nat)} {m : List Nat}
    (h : allSome l = some m) :
    ∀ j, j < l.length → ∃ t, l.get? j = some (some t) ∧ m.get? j = some t := by
  induction l generalizing m with
  | nil => intro j hj; simp at hj
  | cons x xs ih =>
    cases x with
    | none => exact absurd h (by simp [allSome])
    | some t =>
      simp only [allSome, Option.map_eq_some'] at h
      obtain ⟨m2, hm2, hm⟩ := h
      intro j hj
      cases j with
      | zero => exact ⟨t, rfl, by rw [← hm]; rfl⟩
      | succ n =>
        simp only [List.length_cons, Nat.succ_lt_succ_iff] at hj
        obtain ⟨u, hu1, hu2⟩ := ih hm2 n hj
        exact ⟨u, by simpa [List.get?] using hu1, by rw [← hm]; simpa [List.get?] using hu2⟩

theorem allSome_replicate_none {n : Nat} (h : n ≠ 0) :
    allSome (List.replicate n none) = none := by
  cases n with
  | zero => exact absurd rfl h
  | succ m => rfl

/-! ## Helper lemmas: `cumsum`, `wsum`, `setAt` arithmetic -/

theorem cumsumFrom_length (a : Int) (l : List Int) :
    (cumsumFrom a l).length = l.length := by
  induction l generalizing a with
  | nil => rfl
  | cons x xs ih => simpa [cumsumFrom] using ih (a + x)

theorem sum_dropLast_cumsumFrom (a : Int) (l : List Int) :
    ((cumsumFrom a l).dropLast).sum
      = ((l.length - 1 : Nat) : Int) * a + wsum l := by
  induction l generalizing a with
  | nil => simp [cumsumFrom, wsum]
  | cons x xs ih =>
    cases xs with
    | nil => simp [cumsumFrom, wsum]
    | cons y ys =>
      rw [cumsumFrom]
      have hne : cumsumFrom (a + x) (y :: ys) ≠ [] := by
        simp [cumsumFrom]
      rw [List.dropLast_cons_of_ne_nil hne, List.sum_cons, ih (a + x)]
      have h1 : (((x :: y :: ys).length - 1 : Nat) : Int) = (ys.length : Int) + 1 := by
        simp
      have h2 : (((y :: ys).length - 1 : Nat) : Int) = (ys.length : Int) := by
        simp
      rw [h1, h2]
      simp only [wsum, List.length_cons]
      push_cast
      ring

theorem wsum_setAt {l : List Int} {k : Nat} {x d : Int}
    (h : l.get? k = some x) :
    wsum (setAt l k (x + d)) = wsum l + ((l.length - 1 - k : Nat) : Int) * d := by
  induction l generalizing k with
  | nil => simp at h
  | cons z zs ih =>
    cases k with
    | zero =>
      simp only [List.get?] at h
      injection h with h
      subst h
      simp only [setAt, wsum, setAt_length, List.length_cons]
      push_cast
      ring_nf
      simp [Nat.add_sub_cancel]
      ring
    | succ n =>
      simp only [List.get?] at h
      simp only [setAt, wsum, setAt_length, List.length_cons]
      rw [ih h]
      have : ((zs.length + 1 - 1 - (n + 1) : Nat) : Int) = ((zs.length - 1 - n : Nat) : Int) := by
        congr 1
        omega
      rw [this]
      ring

theorem take_sum_setAt {l : List Int} {k : Nat} {x d : Int} (m : Nat)
    (h : l.get? k = some x) :
    ((setAt l k (x + d)).take m).sum
      = (l.take m).sum + (if k < m then d else 0) := by
  induction l generalizing k m with
  | nil => simp at h
  | cons z zs ih =>
    cases k with
    | zero =>
      simp only [List.get?] at h
      injection h with h
      subst h
      cases m with
      | zero => simp
      | succ p =>
        simp only [setAt, List.take, List.sum_cons]
        have : (0 : Nat) < p + 1 := by omega
        rw [if_pos this]
        ring
    | succ n =>
      simp only [List.get?] at h
      cases m with
      | zero => simp
      | succ p =>
        simp only [setAt, List.take, List.sum_cons]
        rw [ih p h]
        rw [if_congr Nat.succ_lt_succ_iff rfl rfl]
        ring

theorem get?_cumsumFrom {l : List Int} {j : Nat} (a : Int)
    (h : j < l.length) :
    (cumsumFrom a l).get? j = some (a + (l.take (j + 1)).sum) := by
  induction l generalizing a j with
  | nil => simp at h
  | cons x xs ih =>
    cases j with
    | zero => simp [cumsumFrom, List.take]
    | succ n =>
      simp only [List.length_cons, Nat.succ_lt_succ_iff] at h
      simp only [cumsumFrom, List.get?]
      rw [ih (a + x) h]
      simp only [List.take, List.sum_cons]
      congr 1
      ring

theorem get?_dropLast {α : Type} {l : List α} {j : Nat}
    (h : j + 1 < l.length) : l.dropLast.get? j = l.get? j := by
  induction l generalizing j with
  | nil => simp at h
  | cons x xs ih =>
    cases xs with
    | nil => simp at h
    | cons y ys =>
      cases j with
      | zero => rfl
      | succ n =>
        simp only [List.length_cons, Nat.succ_lt_succ_iff] at h
        have hne : (y :: ys : List α) ≠ [] := by simp
        rw [List.dropLast_cons_of_ne_nil hne]
        simpa [List.get?] using ih (by simpa using h)

theorem wsum_replicate_zero (n : Nat) : wsum (List.replicate n 0) = 0 := by
  induction n with
  | zero => rfl
  | succ m ih => simpa [List.replicate, wsum] using ih

theorem get?_replicate_zero {n j : Nat} (h : j < n) :
    (List.replicate n (0 : Int)).get? j = some 0 := by
  induction n generalizing j with
  | zero => simp at h
  | succ m ih =>
    cases j with
    | zero => rfl
    | succ p =>
      simpa [List.replicate, List.get?] using ih (by omega)

theorem take_replicate_zero_sum (n k : Nat) :
    ((List.replicate n (0 : Int)).take k).sum = 0 := by
  induction n generalizing k with
  | zero => simp
  | succ m ih =>
    cases k with
    | zero => simp
    | succ p => simpa [List.replicate, List.take] using ih p

/-! ## Helper lemmas: multi-birth steps, duplicate counting -/

theorem mem_multiBirthSteps {birth : List Int} {v : Int} :
    v ∈ multiBirthSteps birth ↔ v ∈ birth ∧ 1 < countOf birth v := by
  unfold multiBirthSteps
  rw [List.mem_filter, mem_dedupSorted, List.mem_insertionSort]
  simp only [decide_eq_true_eq]

theorem multiBirthSteps_sorted_lt (birth : List Int) :
    (multiBirthSteps birth).Sorted (· < ·) := by
  have hs : (List.insertionSort (fun a b : Int => a ≤ b) birth).Sorted (· ≤ ·) :=
    List.sorted_insertionSort _ birth
  exact (dedupSorted_sorted_lt hs).filter _

theorem multiBirthSteps_head_zero {birth : List Int}
    (hnn : ∀ v ∈ birth, 0 ≤ v) (h0 : (0 : Int) ∈ multiBirthSteps birth) :
    (multiBirthSteps birth).head? = some 0 := by
  rcases hmb : multiBirthSteps birth with _ | ⟨a, t⟩
  · rw [hmb] at h0; simp at h0
  · have hs := multiBirthSteps_sorted_lt birth
    rw [hmb] at hs h0
    rcases List.mem_cons.mp h0 with h | h
    · rw [← h]; rfl
    · have hlt : a < 0 := (List.sorted_cons.mp hs).1 0 h
      have hge : 0 ≤ a := by
        have : a ∈ multiBirthSteps birth := by rw [hmb]; simp
        exact hnn a (mem_multiBirthSteps.mp this).1
      omega

theorem nodup_iff_no_dup_pair {α : Type} {l : List α} :
    ¬ l.Nodup ↔ ∃ i j v, i < j ∧ l.get? i = some v ∧ l.get? j = some v := by
  constructor
  · intro h
    induction l with
    | nil => exact absurd List.nodup_nil h
    | cons x xs ih =>
      rw [List.nodup_cons] at h
      push_neg at h
      by_cases hx : x ∈ xs
      · obtain ⟨k, hk⟩ := mem_iff_get?_some.mp hx
        exact ⟨0, k + 1, x, by omega, rfl, by simpa [List.get?] using hk⟩
      · obtain ⟨i, j, v, hij, hi, hj⟩ := ih (h hx)
        exact ⟨i + 1, j + 1, v, by omega, by simpa [List.get?] using hi,
          by simpa [List.get?] using hj⟩
  · rintro ⟨i, j, v, hij, hi, hj⟩ hn
    exact absurd (nodup_get?_inj hn hi hj) (by omega)

theorem repeatCountOf_eq_zero_iff {rows : List DeadPoint} :
    repeatCountOf rows = 0 ↔ (loglsOf rows).Nodup := by
  unfold repeatCountOf
  set s := List.insertionSort (fun a b : ℚ => a ≤ b) (loglsOf rows) with hs
  have hperm : s.Perm (loglsOf rows) := List.perm_insertionSort _ _
  have hlen : s.length = (loglsOf rows).length := hperm.length_eq
  have hsub : List.Sublist (dedupSorted s) s := dedupSorted_sublist s
  have hsort : s.Sorted (· ≤ ·) := List.sorted_insertionSort _ _
  constructor
  · intro h
    have hle : (dedupSorted s).length ≤ s.length := hsub.length_le
    have hexact : (dedupSorted s).length = s.length := by omega
    have : dedupSorted s = s := hsub.eq_of_length hexact
    have hnod : s.Nodup := this ▸ dedupSorted_nodup hsort
    exact hperm.nodup_iff.mp hnod
  · intro h
    have hnod : s.Nodup := hperm.nodup_iff.mpr h
    rw [dedupSorted_eq_self_of_nodup hnod, hlen]
    omega

/-! ## Helper lemmas: the standard nlive profile -/

theorem setAt_at_append {α : Type} (A B : List α) (b v : α) :
    setAt (A ++ b :: B) A.length v = A ++ v :: B := by
  induction A with
  | nil => rfl
  | cons x xs ih => simpa [setAt] using ih

theorem rampDown_append_ok (n : Nat) (xs ys : List Nat) (arr arr2 : List Int)
    (h : rampDown n xs arr = .ok arr2) :
    rampDown n (xs ++ ys) arr = rampDown n ys arr2 := by
  induction xs generalizing arr with
  | nil =>
    simp only [rampDown] at h
    injection h with h
    rw [List.nil_append, h]
  | cons i is ih =>
    by_cases hi : i ≤ n
    · simp only [rampDown, if_pos hi] at h
      simpa [rampDown, hi] using ih _ h
    · simp only [rampDown, if_neg hi] at h
      exact Except.noConfusion h

theorem rampDown_range_spec (n L : Nat) :
    ∀ k, k ≤ n →
    rampDown n ((List.range k).map (fun i => i + 1)) (List.replicate n (L : Int))
      = .ok (List.replicate (n - k) (L : Int)
          ++ (List.range k).reverse.map (fun i : Nat => (i : Int) + 1)) := by
  intro k
  induction k with
  | zero => intro _; simp [rampDown]
  | succ m ih =>
    intro hk
    rw [List.range_succ, List.map_append,
      rampDown_append_ok n _ _ _ _ (ih (by omega))]
    obtain ⟨p, hp⟩ : ∃ p, n - m = p + 1 := ⟨n - m - 1, by omega⟩
    have hp2 : n - (m + 1) = p := by omega
    have hramp : ((List.range m ++ [m]).reverse).map (fun i : Nat => (i : Int) + 1)
        = ((m + 1 : Nat) : Int)
          :: (List.range m).reverse.map (fun i : Nat => (i : Int) + 1) := by
      rw [List.reverse_append]
      simp only [List.reverse_singleton, List.singleton_append, List.map_cons]
      norm_cast
    have happ := setAt_at_append (List.replicate p (L : Int))
      ((List.range m).reverse.map (fun i : Nat => (i : Int) + 1))
      (L : Int) ((m + 1 : Nat) : Int)
    rw [List.length_replicate] at happ
    simp only [List.map_cons, List.map_nil, rampDown]
    rw [if_pos (by omega : m + 1 ≤ n)]
    rw [hp, List.replicate_succ', List.append_assoc, List.singleton_append,
      hp2, happ, hramp]

theorem standard_nlive_array_eq_profile (n L : Nat) (hLn : L ≤ n + 1) :
    standard_nlive_array n L = .ok (expectedConstantNliveProfile n L) := by
  unfold standard_nlive_array expectedConstantNliveProfile
  exact rampDown_range_spec n L (L - 1) (by omega)

/-! ## Claim C6 -/

/-- Claim C6: when the metadata declares a constant live-point count `L`
(with the profile well defined, i.e. `L ≤ n + 1` for `n` points), the
settings cross-check succeeds exactly when the derived thread count equals
`L` and the derived `nlive_array` equals the profile that is constant at `L`
for all but the final `L - 1` points and then ramps linearly down to `1`. -/
theorem c6_settings_cross_check (run : NsRun) (L : Nat)
    (hLn : L ≤ run.logl.length + 1) :
    settings_cross_check run L = .ok () ↔
      (run.thread_min_max.length = L ∧
       run.nlive_array = expectedConstantNliveProfile run.logl.length L) := by
  unfold settings_cross_check
  rw [standard_nlive_array_eq_profile run.logl.length L hLn]
  by_cases h1 : run.thread_min_max.length = L
  · rw [if_pos h1]
    by_cases h2 : run.nlive_array = expectedConstantNliveProfile run.logl.length L
    · simp [h1, h2]
    · simp [h1, h2]
  · rw [if_neg h1]
    simp [h1]

/-- Witness for C6 on the worked-scenario run with `L = 2`. -/
theorem c6_settings_cross_check_witness :
    settings_cross_check exampleRun 2 = .ok () :=
  (c6_settings_cross_check exampleRun 2 (by decide)).mpr ⟨by decide, by decide⟩

/-! ## Claim C1 -/

/-- Claim C1: on the worked scenario (`logl = [1, 2, 3, 4]`,
`birth_contour = [0, 0, 1, 2]`) the full pipeline
`process_polychord_dead_points` succeeds and produces
`thread_labels = [0, 1, 0, 1]`,
`thread_min_max = [(-inf, 3), (-inf, 4)]` and
`nlive_array = [2, 2, 2, 1]`. -/
theorem c1_worked_scenario :
    process_polychord_dead_points exampleRows = .ok exampleRun ∧
    exampleRun.thread_labels = [0, 1, 0, 1] ∧
    exampleRun.thread_min_max = [(.neginf, 3), (.neginf, 4)] ∧
    exampleRun.nlive_array = [2, 2, 2, 1] :=
  ⟨by decide, rfl, rfl, rfl⟩

/-! ## Claim C9 -/

/-- Claim C9: the run validator is idempotent.  `check_ns_run` is a pure
function of the run (it never writes to the run structure), so validating a
run and then validating it again is the same computation as validating it
once; in particular a second validation of a successfully validated run
succeeds. -/
theorem c9_validator_idempotent (run : NsRun) :
    (check_ns_run run).bind (fun _ => check_ns_run run) = check_ns_run run := by
  cases h : check_ns_run run with
  | error e => simp [Except.bind]
  | ok u => cases u; simp [Except.bind, h]

/-! ## Claim C8 -/

/-- Claim C8: a `birth_contour` array with no zero entry (and otherwise
well-formed, i.e. non-negative entries) is rejected: the decomposer raises
the error for the invariant that some thread must start from the whole
prior. -/
theorem c8_no_zero_birth_errors (birth : List Int)
    (hnn : ∀ v ∈ birth, 0 ≤ v) (hnz : ∀ v ∈ birth, v ≠ 0) :
    threads_given_birth_order birth = .error .noZeroBirth := by
  have hall : birth.all (fun v => decide (0 ≤ v)) = true := by
    rw [List.all_eq_true]
    intro v hv
    exact decide_eq_true (hnn v hv)
  have hany : ¬ (birth.any (fun v => decide (v = 0)) = true) := by
    rw [List.any_eq_true]
    rintro ⟨v, hv, hdec⟩
    exact hnz v hv (of_decide_eq_true hdec)
  have ht : threadsResult birth = .error .noZeroBirth := by
    unfold threadsResult
    rw [if_pos hall, if_neg hany]
  simp [threads_given_birth_order, ht]

/-- Witness for C8 at the concrete input `[1, 2, 2]`. -/
theorem c8_no_zero_birth_errors_witness :
    threads_given_birth_order [1, 2, 2] = .error .noZeroBirth :=
  c8_no_zero_birth_errors [1, 2, 2] (by decide) (by decide)

/-! ## Claim C5 -/

/-- Claim C5 counterexample: on a table whose prior-born points carry the
Fortran sentinel `-2147483648`, processing does not normalize and complete;
it fails with the non-negativity assertion of the thread decomposer (the
normalization-and-warn block in the source is commented out). -/
theorem c5_sentinel_counterexample :
    process_polychord_dead_points exampleSentinelRows = .error .negativeBirth := by
  decide

/-- Claim C5 (amended): any birth-contour input containing a negative value
(in particular the sentinel `-2147483648`) makes the thread decomposer fail
with the non-negativity assertion error. -/
theorem c5_negative_birth_asserts (birth : List Int)
    (h : ∃ v ∈ birth, v < 0) :
    threads_given_birth_order birth = .error .negativeBirth := by
  obtain ⟨v, hv, hneg⟩ := h
  have hall : ¬ (birth.all (fun v => decide (0 ≤ v)) = true) := by
    rw [List.all_eq_true]
    intro hforall
    exact absurd (of_decide_eq_true (hforall v hv)) (by omega)
  have ht : threadsResult birth = .error .negativeBirth := by
    unfold threadsResult
    rw [if_neg hall]
  simp [threads_given_birth_order, ht]

/-- Witness for C5 at the sentinel input `[-2147483648, -2147483648, 1, 2]`. -/
theorem c5_negative_birth_asserts_witness :
    threads_given_birth_order [-2147483648, -2147483648, 1, 2]
      = .error .negativeBirth :=
  c5_negative_birth_asserts [-2147483648, -2147483648, 1, 2] (by decide)

/-! ## Claim C7 -/

/-- Claim C7 counterexample: on `logl = [1, 1, 2]` processing fails, but the
error raised by the raw-table check carries only the number of repeated
values (`1`); the assertion message in `process_polychord_dead_points`
reports no duplicate values or positions (those appear only in the separate
`check_ns_run` validator). -/
theorem c7_duplicate_report_counterexample :
    process_polychord_dead_points exampleDupRows = .error (.repeatedLogls 1) := by
  decide

/-- Claim C7 (amended): processing a raw table with two rows sharing a
`logl` value fails with the duplicate-likelihood error, which reports the
number of repeated values; a table with globally unique `logl` values passes
the duplicate check after sorting. -/
theorem c7_duplicate_logl_check (rows : List DeadPoint) :
    (0 < repeatCountOf rows ↔
      ∃ i j v, i < j ∧ (loglsOf rows).get? i = some v
        ∧ (loglsOf rows).get? j = some v) ∧
    (0 < repeatCountOf rows →
      process_polychord_dead_points rows
        = .error (.repeatedLogls (repeatCountOf rows))) ∧
    (repeatCountOf rows = 0 → duplicateLoglCheck rows = .ok ()) := by
  refine ⟨?_, ?_, ?_⟩
  · rw [← nodup_iff_no_dup_pair, ← repeatCountOf_eq_zero_iff]
    omega
  · intro h
    have hck : duplicateLoglCheck rows = .error (.repeatedLogls (repeatCountOf rows)) := by
      unfold duplicateLoglCheck
      rw [if_pos (by omega)]
    simp [process_polychord_dead_points, hck]
  · intro h
    unfold duplicateLoglCheck
    rw [if_neg (by omega)]

/-- Witness for C7 at the duplicate table `logl = [1, 1, 2]`. -/
theorem c7_duplicate_logl_check_witness :
    0 < repeatCountOf exampleDupRows ∧
    process_polychord_dead_points exampleDupRows
      = .error (.repeatedLogls (repeatCountOf exampleDupRows)) :=
  ⟨by decide, (c7_duplicate_logl_check exampleDupRows).2.1 (by decide)⟩

/-! ## Claim C10 -/

/-- Claim C10: when every birth-contour value has multiplicity one (and the
input is otherwise well formed: non-negative with at least one zero), there
are no multi-birth steps, the double loop assigns no labels at all (the
final state is the initial state), and the decomposer fails with the
unassigned-point error. -/
theorem c10_all_unique_unassigned (birth : List Int)
    (hnn : ∀ v ∈ birth, 0 ≤ v) (hz : (0 : Int) ∈ birth)
    (hcount : ∀ v : Int, countOf birth v ≤ 1) :
    threadsResult birth = .ok (initState birth.length) ∧
    threads_given_birth_order birth = .error .unassignedPoints := by
  have hmb : multiBirthSteps birth = [] := by
    rw [List.eq_nil_iff_forall_not_mem]
    intro v hv
    have := (mem_multiBirthSteps.mp hv).2
    have := hcount v
    omega
  have hall : birth.all (fun v => decide (0 ≤ v)) = true := by
    rw [List.all_eq_true]
    intro v hv
    exact decide_eq_true (hnn v hv)
  have hany : birth.any (fun v => decide (v = 0)) = true := by
    rw [List.any_eq_true]
    exact ⟨0, hz, by decide⟩
  have ht : threadsResult birth = .ok (initState birth.length) := by
    unfold threadsResult
    rw [if_pos hall, if_pos hany, hmb]
    rfl
  refine ⟨ht, ?_⟩
  have hne : birth.length ≠ 0 := by
    intro hlen
    rw [List.length_eq_zero] at hlen
    rw [hlen] at hz
    simp at hz
  have hnone : allSome (List.replicate birth.length none) = none :=
    allSome_replicate_none hne
  simp [threads_given_birth_order, ht, initState, hnone]

/-- Witness for C10 at the single-live-point run `[0, 1, 2]`. -/
theorem c10_all_unique_unassigned_witness :
    threadsResult [0, 1, 2] = .ok (initState 3) ∧
    threads_given_birth_order [0, 1, 2] = .error .unassignedPoints := by
  have h := c10_all_unique_unassigned [0, 1, 2] (by decide) (by decide)
    (fun v => by
      by_cases h0 : v = 0
      · subst h0; decide
      · by_cases h1 : v = 1
        · subst h1; decide
        · by_cases h2 : v = 2
          · subst h2; decide
          · have : countOf [0, 1, 2] v = 0 := by
              unfold countOf
              rw [List.length_eq_zero, List.filter_eq_nil]
              intro a ha
              fin_cases ha <;> simpa using by omega
            omega)
  simpa using h

/-! ## Helper lemmas: decomposition loop invariants -/

theorem walkFill_ok {birth : List Int} {tn : Nat} {fuel : Nat} {pos : Nat}
    {labels labels2 : List (Option Nat)}
    (h : walkFill birth tn fuel pos labels = .ok labels2) :
    labels2.length = labels.length ∧
    ∀ j t, labels2.get? j = some (some t) →
      labels.get? j = some (some t) ∨ ∃ v, birth.get? j = some v ∧ 1 ≤ v := by
  induction fuel generalizing pos labels with
  | zero => exact Except.noConfusion h
  | succ f ih =>
    rw [walkFill] at h
    cases hfind : firstIdxOf birth ((pos : Int) + 1) with
    | none =>
      rw [hfind] at h
      injection h with h
      subst h
      exact ⟨rfl, fun j t hj => Or.inl hj⟩
    | some j =>
      simp only [hfind] at h
      cases hget : labels.get? j with
      | none =>
        rw [hget] at h
        exact Except.noConfusion h
      | some o =>
        cases o with
        | some t0 =>
          rw [hget] at h
          exact Except.noConfusion h
        | none =>
          rw [hget] at h
          obtain ⟨hlen, hchar⟩ := ih h
          refine ⟨by rw [hlen, setAt_length], ?_⟩
          intro j2 t hj2
          rcases hchar j2 t hj2 with hc | hc
          · by_cases hjj : j = j2
            · subst hjj
              exact Or.inr ⟨(pos : Int) + 1, firstIdxOf_some hfind, by omega⟩
            · left
              rwa [get?_setAt_ne _ _ _ _ hjj] at hc
          · exact Or.inr hc

theorem startThread_ok {birth : List Int} {j : Nat} {st st2 : DecompState}
    (h : startThread birth j st = .ok st2) :
    st2.starts = st.starts ++ [j] ∧
    st2.labels.length = st.labels.length ∧
    ∀ j2 t, st2.labels.get? j2 = some (some t) →
      j2 = j ∨ st.labels.get? j2 = some (some t)
        ∨ ∃ v, birth.get? j2 = some v ∧ 1 ≤ v := by
  unfold startThread at h
  cases hget : st.labels.get? j with
  | none =>
    rw [hget] at h
    exact Except.noConfusion h
  | some o =>
    cases o with
    | some t0 =>
      rw [hget] at h
      exact Except.noConfusion h
    | none =>
      rw [hget] at h
      cases hw : walkFill birth st.tnum birth.length j
          (setAt st.labels j (some st.tnum)) with
      | error e =>
        rw [hw] at h
        exact Except.noConfusion h
      | ok labels2 =>
        rw [hw] at h
        injection h with h
        subst h
        obtain ⟨hlen, hchar⟩ := walkFill_ok hw
        refine ⟨rfl, by rw [hlen, setAt_length], ?_⟩
        intro j2 t hj2
        rcases hchar j2 t hj2 with hc | hc
        · by_cases hjj : j = j2
          · exact Or.inl hjj.symm
          · right; left
            rwa [get?_setAt_ne _ _ _ _ hjj] at hc
        · exact Or.inr (Or.inr hc)

theorem startThread_inv {birth : List Int} {j : Nat} {st st2 : DecompState}
    (hInv : StartsInv birth st)
    (hj : ∃ v, birth.get? j = some v ∧ v ∈ multiBirthSteps birth ∧
      ((multiBirthSteps birth).head? = some v ∨ (idxsOf birth v).head? ≠ some j))
    (h : startThread birth j st = .ok st2) :
    StartsInv birth st2 := by
  obtain ⟨hlen, hchar, hstarts⟩ := hInv
  obtain ⟨hst, hlen2, hchar2⟩ := startThread_ok h
  refine ⟨by rw [hlen2, hlen], ?_, ?_⟩
  · intro j2 t hj2
    rcases hchar2 j2 t hj2 with hc | hc | hc
    · subst hc
      exact Or.inl (by rw [hst]; simp)
    · rcases hchar j2 t hc with hm | hm
      · exact Or.inl (by rw [hst]; exact List.mem_append_left _ hm)
      · exact Or.inr hm
    · exact Or.inr hc
  · intro j2 hj2
    rw [hst] at hj2
    rcases List.mem_append.mp hj2 with hm | hm
    · exact hstarts j2 hm
    · have : j2 = j := by simpa using hm
      subst this
      exact hj

theorem innerLoop_inv {birth : List Int} {nstep : Nat} {step : Int}
    {pairs : List (Nat × Nat)} {st st2 : DecompState}
    (hInv : StartsInv birth st)
    (hstep : step ∈ multiBirthSteps birth)
    (hnstep : nstep = 0 → (multiBirthSteps birth).head? = some step)
    (hpairs : ∀ p ∈ pairs, birth.get? p.2 = some step ∧
      (p.1 ≠ 0 → (idxsOf birth step).head? ≠ some p.2))
    (h : innerLoop birth nstep pairs st = .ok st2) :
    StartsInv birth st2 := by
  induction pairs generalizing st with
  | nil =>
    rw [innerLoop] at h
    injection h with h
    subst h
    exact hInv
  | cons p rest ih =>
    obtain ⟨i, j⟩ := p
    rw [innerLoop] at h
    by_cases hcond : i ≠ 0 ∨ nstep = 0
    · rw [if_pos hcond] at h
      cases hstart : startThread birth j st with
      | error e =>
        rw [hstart] at h
        exact Except.noConfusion h
      | ok stM =>
        rw [hstart] at h
        have hphead := hpairs (i, j) (by simp)
        have hjside : ∃ v, birth.get? j = some v ∧ v ∈ multiBirthSteps birth ∧
            ((multiBirthSteps birth).head? = some v
              ∨ (idxsOf birth v).head? ≠ some j) := by
          refine ⟨step, hphead.1, hstep, ?_⟩
          rcases hcond with hi | hn
          · exact Or.inr (hphead.2 hi)
          · exact Or.inl (hnstep hn)
        exact ih (startThread_inv hInv hjside hstart)
          (fun p hp => hpairs p (by simp [hp])) h
    · rw [if_neg hcond] at h
      exact ih hInv (fun p hp => hpairs p (by simp [hp])) h

theorem outerLoop_inv {birth : List Int} {list : List (Nat × Int)}
    {st st2 : DecompState}
    (hInv : StartsInv birth st)
    (hlist : ∀ q ∈ list, (multiBirthSteps birth).get? q.1 = some q.2)
    (h : outerLoop birth list st = .ok st2) :
    StartsInv birth st2 := by
  induction list generalizing st with
  | nil =>
    rw [outerLoop] at h
    injection h with h
    subst h
    exact hInv
  | cons q rest ih =>
    obtain ⟨ns, sp⟩ := q
    rw [outerLoop] at h
    cases hin : innerLoop birth ns (indexed 0 (idxsOf birth sp)) st with
    | error e =>
      rw [hin] at h
      exact Except.noConfusion h
    | ok stM =>
      rw [hin] at h
      have hq := hlist (ns, sp) (by simp)
      have hinv2 : StartsInv birth stM := by
        refine innerLoop_inv hInv (List.get?_mem hq) ?_ ?_ hin
        · intro hns
          rw [head?_eq_get?_zero]
          rw [hns] at hq
          exact hq
        · intro p hp
          obtain ⟨m, hm, hg⟩ := mem_indexed.mp hp
          simp only [Nat.zero_add] at hm
          constructor
          · exact mem_idxsOf.mp (List.get?_mem hg)
          · intro hi hhead
            rw [head?_eq_get?_zero] at hhead
            exact hi (nodup_get?_inj (idxsOf_nodup birth sp) (hm ▸ hg) hhead)
      exact ih hinv2 (fun q hq2 => hlist q (by simp [hq2])) h

theorem get?_replicate_eq {α : Type} {a b : α} {n j : Nat}
    (h : (List.replicate n a).get? j = some b) : b = a := by
  induction n generalizing j with
  | zero => exact Option.noConfusion h
  | succ m ih =>
    cases j with
    | zero =>
      injection h with h
      exact h.symm
    | succ p =>
      exact ih (by simpa [List.replicate, List.get?] using h)

theorem initState_inv (birth : List Int) :
    StartsInv birth (initState birth.length) := by
  refine ⟨by simp [initState], ?_, ?_⟩
  · intro j t hj
    have := get?_replicate_eq hj
    exact Option.noConfusion this
  · intro j hj
    simp [initState] at hj

theorem threadsResult_ok_facts {birth : List Int} {st : DecompState}
    (h : threadsResult birth = .ok st) :
    (∀ v ∈ birth, 0 ≤ v) ∧ (∃ j0, birth.get? j0 = some (0 : Int)) ∧
    StartsInv birth st ∧
    outerLoop birth (indexed 0 (multiBirthSteps birth))
      (initState birth.length) = .ok st := by
  unfold threadsResult at h
  by_cases hall : birth.all (fun v => decide (0 ≤ v)) = true
  · rw [if_pos hall] at h
    by_cases hany : birth.any (fun v => decide (v = 0)) = true
    · rw [if_pos hany] at h
      refine ⟨?_, ?_, ?_, h⟩
      · intro v hv
        exact of_decide_eq_true (List.all_eq_true.mp hall v hv)
      · obtain ⟨v, hv, hdec⟩ := List.any_eq_true.mp hany
        have hv0 : v = 0 := of_decide_eq_true hdec
        obtain ⟨j0, hj0⟩ := mem_iff_get?_some.mp hv
        exact ⟨j0, hv0 ▸ hj0⟩
      · refine outerLoop_inv (initState_inv birth) ?_ h
        intro q hq
        obtain ⟨m, hm, hg⟩ := mem_indexed.mp hq
        simp only [Nat.zero_add] at hm
        rw [hm]
        exact hg
    · rw [if_neg hany] at h
      exact Except.noConfusion h
  · rw [if_neg hall] at h
    exact Except.noConfusion h

theorem threads_ok_destruct {birth : List Int} {labels : List Nat}
    (h : threads_given_birth_order birth = .ok labels) :
    ∃ st, threadsResult birth = .ok st ∧ allSome st.labels = some labels := by
  unfold threads_given_birth_order at h
  cases ht : threadsResult birth with
  | error e =>
    rw [ht] at h
    exact Except.noConfusion h
  | ok st =>
    simp only [ht] at h
    cases has : allSome st.labels with
    | none =>
      rw [has] at h
      exact Except.noConfusion h
    | some ls =>
      simp only [has] at h
      by_cases hseq : dedupSorted (List.insertionSort (fun a b : Nat => a ≤ b) ls)
          = (if nThreadsExpected birth < 0 then []
             else List.range (nThreadsExpected birth).toNat)
      · rw [if_pos hseq] at h
        injection h with h
        subst h
        exact ⟨st, rfl, has⟩
      · rw [if_neg hseq] at h
        exact Except.noConfusion h

theorem get?_some_lt_length {α : Type} {l : List α} {j : Nat} {a : α}
    (h : l.get? j = some a) : j < l.length := by
  by_contra hge
  rw [List.get?_eq_none.mpr (by omega)] at h
  exact Option.noConfusion h

theorem success_head_zero {birth : List Int} {labels : List Nat}
    (h : threads_given_birth_order birth = .ok labels) :
    (multiBirthSteps birth).head? = some 0 := by
  obtain ⟨st, ht, has⟩ := threads_ok_destruct h
  obtain ⟨hnn, ⟨j0, hj0⟩, hInv, _⟩ := threadsResult_ok_facts ht
  obtain ⟨hlen, hchar, hstarts⟩ := hInv
  have hj0lt : j0 < st.labels.length := by
    rw [hlen]
    exact get?_some_lt_length hj0
  obtain ⟨t, hassigned, _⟩ := allSome_get? has j0 hj0lt
  rcases hchar j0 t hassigned with hstart | ⟨v, hv, hv1⟩
  · obtain ⟨v, hvj, hvm, _⟩ := hstarts j0 hstart
    have hv0 : v = 0 := by
      rw [hj0] at hvj
      injection hvj with hvj
      exact hvj.symm
    exact multiBirthSteps_head_zero hnn (hv0 ▸ hvm)
  · rw [hj0] at hv
    injection hv with hv
    omega

/-! ## Helper lemmas: decomposition loop completeness -/

theorem innerLoop_starts_mono {birth : List Int} {nstep : Nat}
    {pairs : List (Nat × Nat)} {st st2 : DecompState}
    (h : innerLoop birth nstep pairs st = .ok st2) :
    ∀ x ∈ st.starts, x ∈ st2.starts := by
  induction pairs generalizing st with
  | nil =>
    rw [innerLoop] at h
    injection h with h
    subst h
    exact fun x hx => hx
  | cons p rest ih =>
    obtain ⟨i, j⟩ := p
    rw [innerLoop] at h
    by_cases hcond : i ≠ 0 ∨ nstep = 0
    · rw [if_pos hcond] at h
      cases hstart : startThread birth j st with
      | error e =>
        rw [hstart] at h
        exact Except.noConfusion h
      | ok stM =>
        rw [hstart] at h
        intro x hx
        refine ih h x ?_
        rw [(startThread_ok hstart).1]
        exact List.mem_append_left _ hx
    · rw [if_neg hcond] at h
      exact ih h

theorem outerLoop_starts_mono {birth : List Int} {list : List (Nat × Int)}
    {st st2 : DecompState}
    (h : outerLoop birth list st = .ok st2) :
    ∀ x ∈ st.starts, x ∈ st2.starts := by
  induction list generalizing st with
  | nil =>
    rw [outerLoop] at h
    injection h with h
    subst h
    exact fun x hx => hx
  | cons q rest ih =>
    obtain ⟨ns, sp⟩ := q
    rw [outerLoop] at h
    cases hin : innerLoop birth ns (indexed 0 (idxsOf birth sp)) st with
    | error e =>
      rw [hin] at h
      exact Except.noConfusion h
    | ok stM =>
      rw [hin] at h
      exact fun x hx => ih h x (innerLoop_starts_mono hin x hx)

theorem innerLoop_complete {birth : List Int} {nstep : Nat}
    {pairs : List (Nat × Nat)} {st st2 : DecompState}
    (h : innerLoop birth nstep pairs st = .ok st2) :
    ∀ p ∈ pairs, (p.1 ≠ 0 ∨ nstep = 0) → p.2 ∈ st2.starts := by
  induction pairs generalizing st with
  | nil => intro p hp; simp at hp
  | cons q rest ih =>
    obtain ⟨i, j⟩ := q
    rw [innerLoop] at h
    intro p hp hpcond
    rcases List.mem_cons.mp hp with hpq | hpr
    · have hp1 : p.1 = i := by rw [hpq]
      have hp2 : p.2 = j := by rw [hpq]
      have hcond : i ≠ 0 ∨ nstep = 0 := by
        rw [← hp1]
        exact hpcond
      rw [hp2]
      rw [if_pos hcond] at h
      cases hstart : startThread birth j st with
      | error e =>
        rw [hstart] at h
        exact Except.noConfusion h
      | ok stM =>
        rw [hstart] at h
        refine innerLoop_starts_mono h j ?_
        rw [(startThread_ok hstart).1]
        simp
    · by_cases hcond : i ≠ 0 ∨ nstep = 0
      · rw [if_pos hcond] at h
        cases hstart : startThread birth j st with
        | error e =>
          rw [hstart] at h
          exact Except.noConfusion h
        | ok stM =>
          rw [hstart] at h
          exact ih h p hpr hpcond
      · rw [if_neg hcond] at h
        exact ih h p hpr hpcond

theorem outerLoop_complete {birth : List Int} {list : List (Nat × Int)}
    {st st2 : DecompState}
    (h : outerLoop birth list st = .ok st2) :
    ∀ q ∈ list, ∀ p ∈ indexed 0 (idxsOf birth q.2),
      (p.1 ≠ 0 ∨ q.1 = 0) → p.2 ∈ st2.starts := by
  induction list generalizing st with
  | nil => intro q hq; simp at hq
  | cons q0 rest ih =>
    obtain ⟨ns, sp⟩ := q0
    rw [outerLoop] at h
    cases hin : innerLoop birth ns (indexed 0 (idxsOf birth sp)) st with
    | error e =>
      rw [hin] at h
      exact Except.noConfusion h
    | ok stM =>
      rw [hin] at h
      intro q hq p hp hpcond
      rcases List.mem_cons.mp hq with hqq | hqr
      · subst hqq
        exact outerLoop_starts_mono h p.2 (innerLoop_complete hin p hp hpcond)
      · exact ih h q hqr p hp hpcond

/-! ## Claim C2 -/

/-- Claim C2: on every successful decomposition, for every point `j` sharing
a multi-birth contour value `s`: `j` is recorded as a new thread start
exactly when `s = 0` (the start of the whole run, where every sharer starts
a thread) or `j` is not the first sharer of `s`; and in every case `j` ends
up assigned to a thread (so the first sharer at a later contour is a
continuation of an existing chain, not a new start). -/
theorem c2_multi_birth_start_rule (birth : List Int) (labels : List Nat)
    (hok : threads_given_birth_order birth = .ok labels)
    (s : Int) (hs : s ∈ multiBirthSteps birth)
    (j : Nat) (hj : j ∈ idxsOf birth s) :
    ∃ st, threadsResult birth = .ok st ∧
      ((j ∈ st.starts) ↔ (s = 0 ∨ (idxsOf birth s).head? ≠ some j)) ∧
      (∃ t, st.labels.get? j = some (some t)) := by
  obtain ⟨st, ht, has⟩ := threads_ok_destruct hok
  obtain ⟨hnn, hz, hInv, houter⟩ := threadsResult_ok_facts ht
  obtain ⟨hlen, hchar, hstarts⟩ := hInv
  have head0 : (multiBirthSteps birth).head? = some 0 := success_head_zero hok
  have hjbirth : birth.get? j = some s := mem_idxsOf.mp hj
  have hjlt : j < st.labels.length := by
    rw [hlen]
    exact get?_some_lt_length hjbirth
  obtain ⟨t, hassigned, _⟩ := allSome_get? has j hjlt
  refine ⟨st, ht, ?_, ⟨t, hassigned⟩⟩
  constructor
  · intro hstart
    obtain ⟨v, hvj, _, hcase⟩ := hstarts j hstart
    have hvs : v = s := by
      rw [hjbirth] at hvj
      injection hvj with hvj
      exact hvj.symm
    subst hvs
    rcases hcase with hc | hc
    · left
      rw [head0] at hc
      injection hc with hc
      exact hc.symm
    · exact Or.inr hc
  · intro hcond
    obtain ⟨ns, hns⟩ := mem_iff_get?_some.mp hs
    obtain ⟨i, hi⟩ := mem_iff_get?_some.mp hj
    have hqmem : ((ns, s) : Nat × Int) ∈ indexed 0 (multiBirthSteps birth) :=
      mem_indexed.mpr ⟨ns, by omega, hns⟩
    have hpmem : ((i, j) : Nat × Nat) ∈ indexed 0 (idxsOf birth s) :=
      mem_indexed.mpr ⟨i, by omega, hi⟩
    have hbranch : i ≠ 0 ∨ ns = 0 := by
      rcases hcond with hs0 | hnothead
      · right
        subst hs0
        have hget0 : (multiBirthSteps birth).get? 0 = some 0 := by
          rw [← head?_eq_get?_zero]
          exact head0
        have hnodup : (multiBirthSteps birth).Nodup :=
          (multiBirthSteps_sorted_lt birth).nodup
        exact nodup_get?_inj hnodup hns hget0
      · left
        intro hi0
        subst hi0
        rw [head?_eq_get?_zero] at hnothead
        exact hnothead hi
    exact outerLoop_complete houter (ns, s) hqmem (i, j) hpmem hbranch

/-- Witness for C2 on the worked scenario: contour `0` is multi-birth and
its first sharer (index 0) is a thread start. -/
theorem c2_multi_birth_start_rule_witness :
    ∃ st, threadsResult [0, 0, 1, 2] = .ok st ∧
      (((0 : Nat) ∈ st.starts) ↔
        ((0 : Int) = 0 ∨ (idxsOf [(0 : Int), 0, 1, 2] 0).head? ≠ some 0)) ∧
      (∃ t, st.labels.get? 0 = some (some t)) :=
  c2_multi_birth_start_rule [0, 0, 1, 2] [0, 1, 0, 1] (by decide) 0 (by decide)
    0 (by decide)

/-! ## Helper lemmas: the delta / nlive computation -/

theorem bump_ok {l l2 : List Int} {i d : Int} (h : bump l i d = .ok l2) :
    0 ≤ i ∧ i.toNat < l.length ∧ l2.length = l.length ∧
    (∀ k, (l2.take k).sum = (l.take k).sum + (if i.toNat < k then d else 0)) ∧
    wsum l2 = wsum l + ((l.length - 1 - i.toNat : Nat) : Int) * d := by
  unfold bump at h
  by_cases hi : 0 ≤ i
  · rw [if_pos hi] at h
    cases hget : l.get? i.toNat with
    | none =>
      rw [hget] at h
      exact Except.noConfusion h
    | some x =>
      rw [hget] at h
      injection h with h
      subst h
      refine ⟨hi, get?_some_lt_length hget, setAt_length _ _ _, ?_, wsum_setAt hget⟩
      intro k
      exact take_sum_setAt k hget
  · rw [if_neg hi] at h
    exact Except.noConfusion h

theorem mmDeltaLoop_spec {logl : List ℚ} {labels : List Nat} {birthC : List Int}
    {ts : List Nat} {mm mm2 : List (LoglBound × ℚ)} {delta delta2 : List Int}
    (h : mmDeltaLoop logl labels birthC ts mm delta = .ok (mm2, delta2)) :
    ∃ bd : List (Int × Nat),
      List.Forall₂ (fun t p => threadData labels birthC t = some p) ts bd ∧
      mm2.length = mm.length + ts.length ∧
      delta2.length = delta.length ∧
      (∀ k, (delta2.take k).sum = (delta.take k).sum
        + ((bd.filter (fun p => decide (p.1 < (k : Int)))).length : Int)
        - ((bd.filter (fun p => decide ((p.2 : Int) < (k : Int)))).length : Int)) ∧
      wsum delta2 = wsum delta + (bd.map (fun p => (p.2 : Int) - p.1)).sum := by
  induction ts generalizing mm delta with
  | nil =>
    rw [mmDeltaLoop] at h
    injection h with h
    obtain ⟨h1, h2⟩ := Prod.mk.injEq .. |>.mp h
    subst h1
    subst h2
    exact ⟨[], List.Forall₂.nil, by simp, rfl, fun k => by simp, by simp⟩
  | cons t ts ih =>
    rw [mmDeltaLoop] at h
    cases htd : threadData labels birthC t with
    | none =>
      rw [htd] at h
      exact Except.noConfusion h
    | some bd0 =>
      obtain ⟨b, d⟩ := bd0
      simp only [htd] at h
      cases hb1 : bump delta b 1 with
      | error e =>
        rw [hb1] at h
        exact Except.noConfusion h
      | ok delta1 =>
        simp only [hb1] at h
        cases hb2 : bump delta1 (d : Int) (-1) with
        | error e =>
          rw [hb2] at h
          exact Except.noConfusion h
        | ok deltaM =>
          simp only [hb2] at h
          cases hmn : threadMin logl b with
          | error e =>
            simp only [hmn] at h
            exact Except.noConfusion h
          | ok mn =>
            cases hmx : logl.get? (d - 1) with
            | none =>
              simp only [hmn, hmx] at h
              exact Except.noConfusion h
            | some mx =>
              simp only [hmn, hmx] at h
              obtain ⟨bd, hf, hmmlen, hdlen, htake, hws⟩ := ih h
              obtain ⟨hb1nn, hb1lt, hb1len, hb1take, hb1ws⟩ := bump_ok hb1
              obtain ⟨_, hb2lt, hb2len, hb2take, hb2ws⟩ := bump_ok hb2
              have hdnat : ((d : Int)).toNat = d := Int.toNat_natCast d
              rw [hdnat] at hb2lt hb2ws
              rw [hb1len] at hb2lt hb2ws
              refine ⟨(b, d) :: bd, List.Forall₂.cons htd hf, ?_, ?_, ?_, ?_⟩
              · rw [hmmlen]
                simp
                omega
              · rw [hdlen, hb2len, hb1len]
              · intro k
                rw [htake k, hb2take k, hb1take k, hdnat]
                have hfb : ((((b, d) :: bd).filter
                    (fun p => decide (p.1 < (k : Int)))).length : Int)
                    = ((bd.filter (fun p => decide (p.1 < (k : Int)))).length : Int)
                      + (if b < (k : Int) then 1 else 0) := by
                  by_cases hbk : b < (k : Int)
                  · simp [List.filter_cons, hbk]
                  · simp [List.filter_cons, hbk]
                have hfd : ((((b, d) :: bd).filter
                    (fun p => decide ((p.2 : Int) < (k : Int)))).length : Int)
                    = ((bd.filter (fun p => decide ((p.2 : Int) < (k : Int)))).length : Int)
                      + (if (d : Int) < (k : Int) then 1 else 0) := by
                  by_cases hdk : (d : Int) < (k : Int)
                  · have hdk2 : d < k := by omega
                    simp [List.filter_cons, hdk, hdk2]
                  · have hdk2 : ¬ d < k := by omega
                    simp [List.filter_cons, hdk, hdk2]
                rw [hfb, hfd]
                have hcast : b.toNat < k ↔ b < (k : Int) := by omega
                have hcast2 : d < k ↔ (d : Int) < (k : Int) := by omega
                rw [if_congr hcast rfl rfl, if_congr hcast2 rfl rfl]
                have hneg : (if (d : Int) < (k : Int) then (-1 : Int) else 0)
                    = -(if (d : Int) < (k : Int) then (1 : Int) else 0) := by
                  by_cases hdk : (d : Int) < (k : Int)
                  · simp [hdk]
                  · simp [hdk]
                rw [hneg]
                ring
              · rw [hws, hb2ws, hb1ws]
                simp only [List.map_cons, List.sum_cons]
                have hco : ((delta.length - 1 - b.toNat : Nat) : Int) * 1
                    + ((delta.length - 1 - d : Nat) : Int) * (-1)
                    = (d : Int) - b := by
                  have hb : (b.toNat : Int) = b := by omega
                  omega
                ring_nf
                ring_nf at hco
                omega

theorem process_ok_destruct {rows : List DeadPoint} {run : NsRun}
    (h : process_polychord_dead_points rows = .ok run) :
    ∃ labels mm delta,
      threads_given_birth_order (birthContoursOf rows) = .ok labels ∧
      dedupSorted (List.insertionSort (fun a b : Nat => a ≤ b) labels)
        = List.range
            (dedupSorted (List.insertionSort (fun a b : Nat => a ≤ b) labels)).length ∧
      mmDeltaLoop (loglsOf rows) labels (birthContoursOf rows)
        (dedupSorted (List.insertionSort (fun a b : Nat => a ≤ b) labels)) []
        (List.replicate ((loglsOf rows).length + 1) 0) = .ok (mm, delta) ∧
      run = { logl := loglsOf rows,
              theta := (sortedRowsOf rows).map (fun r => r.theta),
              thread_labels := labels, thread_min_max := mm,
              nlive_array := (cumsum delta).dropLast } := by
  unfold process_polychord_dead_points at h
  cases hck : duplicateLoglCheck rows with
  | error e =>
    rw [hck] at h
    exact Except.noConfusion h
  | ok u =>
    simp only [hck] at h
    by_cases hall : (sortedRowsOf rows).all (fun r => decide (r.birth.den = 1)) = true
    · rw [if_pos hall] at h
      cases hth : threads_given_birth_order (birthContoursOf rows) with
      | error e =>
        rw [hth] at h
        exact Except.noConfusion h
      | ok labels =>
        simp only [hth] at h
        by_cases huniq : dedupSorted (List.insertionSort (fun a b : Nat => a ≤ b) labels)
            = List.range
                (dedupSorted (List.insertionSort (fun a b : Nat => a ≤ b) labels)).length
        · rw [if_pos huniq] at h
          cases hloop : mmDeltaLoop (loglsOf rows) labels (birthContoursOf rows)
              (dedupSorted (List.insertionSort (fun a b : Nat => a ≤ b) labels)) []
              (List.replicate ((loglsOf rows).length + 1) 0) with
          | error e =>
            rw [hloop] at h
            exact Except.noConfusion h
          | ok pr =>
            obtain ⟨mm, delta⟩ := pr
            simp only [hloop] at h
            injection h with h
            exact ⟨labels, mm, delta, rfl, huniq, hloop, h.symm⟩
        · rw [if_neg huniq] at h
          exact Except.noConfusion h
    · rw [if_neg hall] at h
      exact Except.noConfusion h

/-! ## Claim C3 -/

/-- Claim C3: on every successfully processed run, `nlive_array` has exactly
one entry per point, and entry `j` equals the number of threads whose birth
time is at most `j` minus the number of threads whose death time is at most
`j` — precisely the value produced by accumulating `+1` at each thread's
birth time (the birth contour of its first point) and `-1` at each thread's
death time (last point position plus one) into a zero delta array of length
`n + 1`, taking the cumulative sum, and dropping the final entry. -/
theorem c3_nlive_delta_cumsum (rows : List DeadPoint) (run : NsRun)
    (h : process_polychord_dead_points rows = .ok run) :
    run.nlive_array.length = run.logl.length ∧
    ∃ bd : List (Int × Nat),
      List.Forall₂
        (fun t p => threadData run.thread_labels (birthContoursOf rows) t = some p)
        (List.range run.thread_min_max.length) bd ∧
      ∀ j, j < run.logl.length →
        run.nlive_array.get? j
          = some (((bd.filter (fun p => decide (p.1 ≤ (j : Int)))).length : Int)
            - ((bd.filter (fun p => decide ((p.2 : Int) ≤ (j : Int)))).length : Int)) := by
  obtain ⟨labels, mm, delta, hth, huniq, hloop, hrun⟩ := process_ok_destruct h
  obtain ⟨bd, hf, hmm, hdlen, htake, hws⟩ := mmDeltaLoop_spec hloop
  have hdlen2 : delta.length = (loglsOf rows).length + 1 := by
    rw [hdlen, List.length_replicate]
  have hrange : List.range run.thread_min_max.length
      = dedupSorted (List.insertionSort (fun a b : Nat => a ≤ b) labels) := by
    rw [hrun]
    simp only
    rw [hmm]
    simp only [List.length_nil, Nat.zero_add]
    exact huniq.symm
  have hlabels : run.thread_labels = labels := by rw [hrun]
  constructor
  · rw [hrun]
    simp only [cumsum]
    rw [List.length_dropLast, cumsumFrom_length, hdlen2]
    omega
  · refine ⟨bd, ?_, ?_⟩
    · rw [hrange, hlabels]
      exact hf
    · intro j hj
      have hjn : j < (loglsOf rows).length := by
        rw [hrun] at hj
        exact hj
      have hnl : run.nlive_array = (cumsum delta).dropLast := by rw [hrun]
      rw [hnl]
      have hjlt : j + 1 < (cumsumFrom 0 delta).length := by
        rw [cumsumFrom_length, hdlen2]
        omega
      rw [cumsum, get?_dropLast hjlt]
      rw [get?_cumsumFrom 0 (by rw [hdlen2]; omega)]
      rw [htake (j + 1)]
      have hz : ((List.replicate ((loglsOf rows).length + 1) (0 : Int)).take (j + 1)).sum
          = 0 := take_replicate_zero_sum _ _
      rw [hz]
      have hcb : bd.filter (fun p => decide (p.1 < ((j + 1 : Nat) : Int)))
          = bd.filter (fun p => decide (p.1 ≤ (j : Int))) := by
        refine List.filter_congr ?_
        intro p _
        rw [decide_eq_decide]
        omega
      have hcd : bd.filter (fun p => decide ((p.2 : Int) < ((j + 1 : Nat) : Int)))
          = bd.filter (fun p => decide ((p.2 : Int) ≤ (j : Int))) := by
        refine List.filter_congr ?_
        intro p _
        rw [decide_eq_decide]
        omega
      rw [hcb, hcd]
      ring_nf

/-- Witness for C3 on the worked scenario, evaluating entry `0`. -/
theorem c3_nlive_delta_cumsum_witness :
    exampleRun.nlive_array.length = exampleRun.logl.length ∧
    ∃ bd : List (Int × Nat),
      List.Forall₂
        (fun t p =>
          threadData exampleRun.thread_labels (birthContoursOf exampleRows) t = some p)
        (List.range exampleRun.thread_min_max.length) bd ∧
      ∀ j, j < exampleRun.logl.length →
        exampleRun.nlive_array.get? j
          = some (((bd.filter (fun p => decide (p.1 ≤ (j : Int)))).length : Int)
            - ((bd.filter (fun p => decide ((p.2 : Int) ≤ (j : Int)))).length : Int)) :=
  c3_nlive_delta_cumsum exampleRows exampleRun (by decide)

/-! ## Claim C4 -/

/-- Claim C4 counterexample: on the worked scenario itself the two threads
have `(birth, death) = (0, 3)` and `(0, 4)`, so the sum over threads of
(death − birth) is `7`, which differs from the number of points `4`. -/
theorem c4_conservation_counterexample :
    process_polychord_dead_points exampleRows = .ok exampleRun ∧
    threadData exampleRun.thread_labels (birthContoursOf exampleRows) 0
      = some (0, 3) ∧
    threadData exampleRun.thread_labels (birthContoursOf exampleRows) 1
      = some (0, 4) ∧
    exampleRun.logl.length = 4 ∧
    ((3 : Int) - 0) + ((4 : Int) - 0) ≠ (4 : Int) := by
  refine ⟨by decide, by decide, by decide, by decide, by decide⟩

/-- Claim C4 (amended): on every successfully processed run, the sum over
threads of (death time − birth time) equals the sum of the entries of
`nlive_array` (each point is counted once for every thread whose active
interval contains its discard step), not the number of points. -/
theorem c4_lifetime_sum_eq_nlive_sum (rows : List DeadPoint) (run : NsRun)
    (h : process_polychord_dead_points rows = .ok run) :
    ∃ bd : List (Int × Nat),
      List.Forall₂
        (fun t p => threadData run.thread_labels (birthContoursOf rows) t = some p)
        (List.range run.thread_min_max.length) bd ∧
      (bd.map (fun p => (p.2 : Int) - p.1)).sum = run.nlive_array.sum := by
  obtain ⟨labels, mm, delta, hth, huniq, hloop, hrun⟩ := process_ok_destruct h
  obtain ⟨bd, hf, hmm, hdlen, htake, hws⟩ := mmDeltaLoop_spec hloop
  have hrange : List.range run.thread_min_max.length
      = dedupSorted (List.insertionSort (fun a b : Nat => a ≤ b) labels) := by
    rw [hrun]
    simp only
    rw [hmm]
    simp only [List.length_nil, Nat.zero_add]
    exact huniq.symm
  have hlabels : run.thread_labels = labels := by rw [hrun]
  refine ⟨bd, by rw [hrange, hlabels]; exact hf, ?_⟩
  have hnl : run.nlive_array = (cumsum delta).dropLast := by rw [hrun]
  rw [hnl, cumsum, sum_dropLast_cumsumFrom, hws, wsum_replicate_zero]
  ring

/-- Witness for C4 (amended) on the worked scenario. -/
theorem c4_lifetime_sum_eq_nlive_sum_witness :
    ∃ bd : List (Int × Nat),
      List.Forall₂
        (fun t p =>
          threadData exampleRun.thread_labels (birthContoursOf exampleRows) t = some p)
        (List.range exampleRun.thread_min_max.length) bd ∧
      (bd.map (fun p => (p.2 : Int) - p.1)).sum = exampleRun.nlive_array.sum :=
  c4_lifetime_sum_eq_nlive_sum exampleRows exampleRun (by decide)

end Nestcheck
